import Mathlib

/-!
Verification of the similarity-ranking core of the DocumentAI notebook
(`src/Embeddings.ipynb`).

The notebook's ranking logic (`search_reviews`, `search_functions`,
`recommendations_from_strings`) is pandas/numpy glue around an external
cosine-similarity helper.  The specification abstracts it into a pure
`rank` operation over rational-valued vectors.  Distances of the two
metrics involve square roots, so a distance is represented exactly by a
constructor of `Dist` (`cos s t` denotes `1 - s/√t`, `euc u` denotes
`√u`); the real value of a representation is given by the predicate
`Dist.hasVal`, and comparisons are decided by the rational sort key
`Dist.key`, proved below to agree with the real ordering on the
representations that the metrics actually produce.
-/

namespace DocAI

/-- An embedding vector: a finite sequence of (exact) numbers. -/
abbrev Vec := List ℚ

/-- Dot product of two vectors (missing tail entries are dropped,
as only equal-length vectors are compared after validation). -/
def dot (x y : Vec) : ℚ := (List.zipWith (· * ·) x y).sum

/-- Squared Euclidean norm. -/
def normSq (x : Vec) : ℚ := dot x x

/-- Componentwise difference. -/
def vsub (x y : Vec) : Vec := List.zipWith (· - ·) x y

/-- Exact representation of a distance value.
`cos s t` denotes the real number `1 - s / √t`;
`euc u` denotes `√u`. -/
inductive Dist where
  | cos (s t : ℚ)
  | euc (u : ℚ)
deriving DecidableEq, Repr

/-- The real value denoted by a distance representation. -/
def Dist.hasVal : Dist → ℝ → Prop
  | .cos s t => fun v => v = 1 - (s : ℝ) / Real.sqrt (t : ℝ)
  | .euc u => fun v => v = Real.sqrt ((u : ℝ))

/-- Rational sort key.  For `cos s t` (with `t > 0`) the map
`s ↦ sign(s)·s²/t` is strictly monotone in `s/√t`, so negating it
orders by ascending cosine distance; for `euc u` the key is `u`,
which orders by ascending `√u`.  The first component separates the
two constructors so that the key order is total on all of `Dist`. -/
def Dist.key : Dist → ℚ × ℚ
  | .cos s t => (0, if 0 ≤ s then -(s ^ 2 / t) else s ^ 2 / t)
  | .euc u => (1, u)

/-- Comparator used for sorting: lexicographic order on the key. -/
def Dist.ble (d1 d2 : Dist) : Prop :=
  d1.key.1 < d2.key.1 ∨ (d1.key.1 = d2.key.1 ∧ d1.key.2 ≤ d2.key.2)

instance : DecidableRel Dist.ble := fun d1 d2 => by
  unfold Dist.ble; infer_instance

/-- Semantic order on distance representations: every denoted value of
the first is at most every denoted value of the second. -/
def Dist.le (d1 d2 : Dist) : Prop :=
  ∀ v w : ℝ, d1.hasVal v → d2.hasVal w → v ≤ w

/-- The two distance metrics of the specification. -/
inductive Metric where
  | cosine
  | euclidean
deriving DecidableEq, Repr

/-- Validation failures of the ranking operation. -/
inductive RankError where
  | DimensionMismatch
  | EmptyInput
  | InvalidMetric
deriving DecidableEq, Repr

/-- Modelled from the spec: cosine distance
`1 − (dot product / (‖query‖ · ‖candidate‖))`, with the
maximal-distance fallback (value `2`, represented by `cos (-1) 1`)
when either vector has zero norm.  The notebook delegates this to the
external `cosine_similarity` helper, which is not part of `src/`. -/
def cosineDist (q c : Vec) : Dist :=
  let t := normSq q * normSq c
  if t = 0 then Dist.cos (-1) 1 else Dist.cos (dot q c) t

/-- Euclidean distance: the L2 norm of the difference, represented by
its square. -/
def euclideanDist (q c : Vec) : Dist :=
  Dist.euc (normSq (vsub q c))

/-- Distance under the selected metric. -/
def distOf : Metric → Vec → Vec → Dist
  | .cosine, q, c => cosineDist q c
  | .euclidean, q, c => euclideanDist q c

/-- Comparator on scored candidates: compare the distance keys. -/
def rankLe {σ : Type} (a b : σ × Dist) : Prop := Dist.ble a.2 b.2

instance {σ : Type} : DecidableRel (@rankLe σ) := fun a b => by
  unfold rankLe; infer_instance

/-- Modelled from the spec: the `SimilarityRanker.rank` contract of
§4.1, which abstracts the notebook's `search_reviews` /
`search_functions` / `recommendations_from_strings` pipelines
(score every candidate, sort ascending by distance with a stable sort,
optionally truncate).  This operation does not itself appear in `src/`;
validation order follows §4.1's error conditions, with the empty check
first (the two conditions cannot overlap). -/
def rank {σ : Type} (query : Vec) (candidates : List (σ × Vec))
    (metric : Metric) (top_n : Option ℕ) :
    Except RankError (List (σ × Dist)) :=
  if candidates.isEmpty then .error .EmptyInput
  else if candidates.any (fun c => c.2.length != query.length) then
    .error .DimensionMismatch
  else
    let scored := candidates.map (fun c => (c.1, distOf metric query c.2))
    let sorted := List.insertionSort rankLe scored
    .ok (match top_n with
          | some n => sorted.take n
          | none => sorted)

/-- From `src/Embeddings.ipynb`: cosine distances of a query embedding
to a list of embeddings (the notebook calls the external
`distances_from_embeddings` with `distance_metric="cosine"`). -/
def distances_from_embeddings (q : Vec) (es : List Vec) : List Dist :=
  es.map (cosineDist q)

/-- From `src/Embeddings.ipynb`: argsort of a distance list — indices
ordered by ascending distance (the notebook calls the external
`indices_of_nearest_neighbors_from_distances`). -/
def indices_of_nearest_neighbors_from_distances (ds : List Dist) : List ℕ :=
  (List.insertionSort rankLe ds.enum).map Prod.fst

/-- From `src/Embeddings.ipynb` (`recommendations_from_strings`):
embed every string, take the embedding at the source index, compute
cosine distances to all embeddings, and return the indices of nearest
neighbours.  The external embedding service is abstracted as the
function argument `emb`; an out-of-range source index is an error
(`none`), as the Python raises `IndexError` there. -/
def recommendations_from_strings (emb : String → Vec)
    (strings : List String) (index_of_source_string : ℕ) :
    Option (List ℕ) :=
  let embeddings := strings.map emb
  match embeddings.get? index_of_source_string with
  | none => none
  | some query_embedding =>
      some (indices_of_nearest_neighbors_from_distances
        (distances_from_embeddings query_embedding embeddings))

/-- Cosine-similarity representation: `(s, t)` denotes `s / √t`
(the value a `cosine_similarity` call computes; only its role as the
sort column matters below). -/
abbrev Sim := ℚ × ℚ

/-- The similarity score stored into the data frame's
`similarities` column. -/
def cosSim (x y : Vec) : Sim := (dot x y, normSq x * normSq y)

/-- Similarity comparator: `a` sorts before `b` when `a` denotes the
larger similarity, i.e. the smaller cosine distance. -/
def simGe (a b : Sim) : Prop := Dist.ble (Dist.cos a.1 a.2) (Dist.cos b.1 b.2)

instance : DecidableRel simGe := fun a b => by
  unfold simGe; infer_instance

/-- A pandas data frame as used by `search_reviews`: the
`ada_embedding` column, the other columns of each row (opaque,
row-aligned), and the `similarities` column, absent until some call
writes it. -/
structure ReviewsFrame (ρ : Type) where
  rest : List ρ
  ada_embedding : List Vec
  similarities : Option (List Sim)
deriving DecidableEq

/-- From `src/Embeddings.ipynb` (`search_reviews`): embed the product
description, ASSIGN the similarity of every row's `ada_embedding` into
the caller's data frame as a new `similarities` column, then return the
top `n` rows by descending similarity.  The returned pair is
(the caller's data frame after the call, the returned result frame);
the external `get_embedding` service is the argument `emb`. -/
def search_reviews {ρ : Type} (emb : String → Vec)
    (df : ReviewsFrame ρ) (product_description : String) (n : ℕ) :
    ReviewsFrame ρ × ReviewsFrame ρ :=
  let embedding := emb product_description
  let sims := df.ada_embedding.map (fun x => cosSim x embedding)
  let df1 : ReviewsFrame ρ := ⟨df.rest, df.ada_embedding, some sims⟩
  let rows := (df.rest.zip df.ada_embedding).zip sims
  let sorted := List.insertionSort (fun a b => simGe a.2 b.2) rows
  let top := sorted.take n
  let res : ReviewsFrame ρ :=
    ⟨top.map (fun r => r.1.1), top.map (fun r => r.1.2), some (top.map (fun r => r.2))⟩
  (df1, res)

/-- A data frame as used by `search_functions`: same shape with the
`code_embedding` column. -/
structure CodeFrame (ρ : Type) where
  rest : List ρ
  code_embedding : List Vec
  similarities : Option (List Sim)
deriving DecidableEq

/-- From `src/Embeddings.ipynb` (`search_functions`): identical logic
to `search_reviews` over the `code_embedding` column. -/
def search_functions {ρ : Type} (emb : String → Vec)
    (df : CodeFrame ρ) (code_query : String) (n : ℕ) :
    CodeFrame ρ × CodeFrame ρ :=
  let embedding := emb code_query
  let sims := df.code_embedding.map (fun x => cosSim x embedding)
  let df1 : CodeFrame ρ := ⟨df.rest, df.code_embedding, some sims⟩
  let rows := (df.rest.zip df.code_embedding).zip sims
  let sorted := List.insertionSort (fun a b => simGe a.2 b.2) rows
  let top := sorted.take n
  let res : CodeFrame ρ :=
    ⟨top.map (fun r => r.1.1), top.map (fun r => r.1.2), some (top.map (fun r => r.2))⟩
  (df1, res)

/-! ### Arithmetic facts about `dot`, `normSq`, `vsub` -/

theorem dot_cons (a b : ℚ) (x y : Vec) :
    dot (a :: x) (b :: y) = a * b + dot x y := by
  simp [dot]

theorem normSq_cons (a : ℚ) (x : Vec) :
    normSq (a :: x) = a * a + normSq x := by
  simp [normSq, dot]

theorem normSq_nonneg (x : Vec) : 0 ≤ normSq x := by
  induction x with
  | nil => simp [normSq, dot]
  | cons a x ih => rw [normSq_cons]; nlinarith

/-- Cauchy–Schwarz for the list dot product. -/
theorem dot_sq_le (x : Vec) : ∀ y : Vec, (dot x y) ^ 2 ≤ normSq x * normSq y := by
  induction x with
  | nil => intro y; simp [dot, normSq]
  | cons a x ih =>
      intro y
      cases y with
      | nil => simp [dot, normSq]
      | cons b y =>
          have h := ih y
          have hx := normSq_nonneg x
          have hy := normSq_nonneg y
          rw [dot_cons, normSq_cons, normSq_cons]
          rcases eq_or_lt_of_le hx with hx0 | hx0
          · have hs : dot x y = 0 := by
              have h2 : dot x y ^ 2 ≤ 0 := by rw [← hx0] at h; linarith [h]
              nlinarith [sq_nonneg (dot x y)]
            rw [hs, ← hx0]
            nlinarith [sq_nonneg a, sq_nonneg b, mul_nonneg (sq_nonneg a) hy]
          · nlinarith [sq_nonneg (a * dot x y - b * normSq x),
              mul_nonneg (sq_nonneg a) (sub_nonneg.mpr h),
              mul_nonneg (le_of_lt hx0) (sub_nonneg.mpr h)]

theorem normSq_vsub_self (x : Vec) : normSq (vsub x x) = 0 := by
  induction x with
  | nil => simp [vsub, normSq, dot]
  | cons a x ih =>
      have : vsub (a :: x) (a :: x) = 0 :: vsub x x := by simp [vsub]
      rw [this, normSq_cons, ih]; ring

/-! ### Order properties of the comparator -/

theorem Dist.ble_total (d1 d2 : Dist) : Dist.ble d1 d2 ∨ Dist.ble d2 d1 := by
  unfold Dist.ble
  rcases lt_trichotomy d1.key.1 d2.key.1 with h | h | h
  · exact Or.inl (Or.inl h)
  · rcases le_total d1.key.2 d2.key.2 with h2 | h2
    · exact Or.inl (Or.inr ⟨h, h2⟩)
    · exact Or.inr (Or.inr ⟨h.symm, h2⟩)
  · exact Or.inr (Or.inl h)

theorem Dist.ble_trans {d1 d2 d3 : Dist}
    (h12 : Dist.ble d1 d2) (h23 : Dist.ble d2 d3) : Dist.ble d1 d3 := by
  unfold Dist.ble at *
  rcases h12 with h12 | ⟨e12, l12⟩
  · rcases h23 with h23 | ⟨e23, _⟩
    · exact Or.inl (h12.trans h23)
    · exact Or.inl (e23 ▸ h12)
  · rcases h23 with h23 | ⟨e23, l23⟩
    · exact Or.inl (e12 ▸ h23)
    · exact Or.inr ⟨e12.trans e23, l12.trans l23⟩

instance {σ : Type} : IsTotal (σ × Dist) rankLe :=
  ⟨fun a b => Dist.ble_total a.2 b.2⟩

instance {σ : Type} : IsTrans (σ × Dist) rankLe :=
  ⟨fun _ _ _ h1 h2 => Dist.ble_trans h1 h2⟩

/-! ### The rational key orders representations by their real value -/

/-- The signed-square map is monotone on ℝ. -/
theorem sgnSq_le_iff (x y : ℝ) :
    ((if 0 ≤ x then x ^ 2 else -x ^ 2) ≤ (if 0 ≤ y then y ^ 2 else -y ^ 2)) ↔ x ≤ y := by
  split_ifs with hx hy hy
  · constructor <;> intro h <;> nlinarith
  · constructor <;> intro h <;> nlinarith
  · constructor <;> intro h <;> nlinarith
  · constructor <;> intro h <;> nlinarith

/-- The key of a `cos` representation with positive `t` reflects the
real cosine-distance order. -/
theorem cos_ble_iff {s1 t1 s2 t2 : ℚ} (h1 : 0 < t1) (h2 : 0 < t2) :
    Dist.ble (.cos s1 t1) (.cos s2 t2) ↔
      ((1 : ℝ) - (s1 : ℝ) / Real.sqrt (t1 : ℝ) ≤ 1 - (s2 : ℝ) / Real.sqrt (t2 : ℝ)) := by
  have hs1 : (0 : ℝ) < Real.sqrt (t1 : ℝ) := Real.sqrt_pos.mpr (by exact_mod_cast h1)
  have hs2 : (0 : ℝ) < Real.sqrt (t2 : ℝ) := Real.sqrt_pos.mpr (by exact_mod_cast h2)
  have hq1 : Real.sqrt (t1 : ℝ) ^ 2 = (t1 : ℝ) := Real.sq_sqrt (by exact_mod_cast h1.le)
  have hq2 : Real.sqrt (t2 : ℝ) ^ 2 = (t2 : ℝ) := Real.sq_sqrt (by exact_mod_cast h2.le)
  have key1 : ∀ (s t : ℚ), 0 < t →
      (((if 0 ≤ s then -(s ^ 2 / t) else s ^ 2 / t) : ℚ) : ℝ) =
        -(if 0 ≤ ((s : ℝ) / Real.sqrt (t : ℝ)) then ((s : ℝ) / Real.sqrt (t : ℝ)) ^ 2
          else -((s : ℝ) / Real.sqrt (t : ℝ)) ^ 2) := by
    intro s t ht
    have hst : (0 : ℝ) < Real.sqrt (t : ℝ) := Real.sqrt_pos.mpr (by exact_mod_cast ht)
    have hqt : Real.sqrt (t : ℝ) ^ 2 = (t : ℝ) := Real.sq_sqrt (by exact_mod_cast ht.le)
    have hdivsq : ((s : ℝ) / Real.sqrt (t : ℝ)) ^ 2 = (s : ℝ) ^ 2 / (t : ℝ) := by
      rw [div_pow, hqt]
    have hsign : (0 ≤ s) ↔ (0 ≤ (s : ℝ) / Real.sqrt (t : ℝ)) := by
      rw [le_div_iff₀ hst, zero_mul]
      exact ⟨fun h => by exact_mod_cast h, fun h => by exact_mod_cast h⟩
    by_cases hs : 0 ≤ s
    · rw [if_pos hs, if_pos (hsign.mp hs), hdivsq]
      push_cast
      ring
    · rw [if_neg hs, if_neg (fun h => hs (hsign.mpr h)), hdivsq]
      push_cast
      ring
  constructor
  · intro h
    rcases h with h | ⟨_, h⟩
    · exact absurd h (by simp [Dist.key])
    · simp only [Dist.key] at h
      have hcast : (((if 0 ≤ s1 then -(s1 ^ 2 / t1) else s1 ^ 2 / t1) : ℚ) : ℝ) ≤
          (((if 0 ≤ s2 then -(s2 ^ 2 / t2) else s2 ^ 2 / t2) : ℚ) : ℝ) := by
        exact_mod_cast h
      rw [key1 s1 t1 h1, key1 s2 t2 h2, neg_le_neg_iff, sgnSq_le_iff] at hcast
      linarith
  · intro h
    refine Or.inr ⟨rfl, ?_⟩
    have hba : (s2 : ℝ) / Real.sqrt (t2 : ℝ) ≤ (s1 : ℝ) / Real.sqrt (t1 : ℝ) := by
      linarith
    have hcast : (((if 0 ≤ s1 then -(s1 ^ 2 / t1) else s1 ^ 2 / t1) : ℚ) : ℝ) ≤
        (((if 0 ≤ s2 then -(s2 ^ 2 / t2) else s2 ^ 2 / t2) : ℚ) : ℝ) := by
      rw [key1 s1 t1 h1, key1 s2 t2 h2, neg_le_neg_iff, sgnSq_le_iff]
      exact hba
    simp only [Dist.key]
    exact_mod_cast hcast

/-- The key of a `euc` representation with nonnegative radicand
reflects the real Euclidean-distance order. -/
theorem euc_ble_iff {u1 u2 : ℚ} (h2 : 0 ≤ u2) :
    Dist.ble (.euc u1) (.euc u2) ↔
      Real.sqrt ((u1 : ℝ)) ≤ Real.sqrt ((u2 : ℝ)) := by
  have : Dist.ble (.euc u1) (.euc u2) ↔ u1 ≤ u2 := by
    unfold Dist.ble
    simp [Dist.key]
  rw [this, Real.sqrt_le_sqrt_iff (by exact_mod_cast h2)]
  exact ⟨fun h => by exact_mod_cast h, fun h => by exact_mod_cast h⟩

/-- A representation is valid for a metric when the metric's scorer
can have produced it: the constructor matches and the radicand has the
sign the scorer guarantees. -/
def ValidFor (m : Metric) (d : Dist) : Prop :=
  match m, d with
  | .cosine, .cos _ t => 0 < t
  | .euclidean, .euc u => 0 ≤ u
  | _, _ => False

theorem distOf_valid (m : Metric) (q c : Vec) : ValidFor m (distOf m q c) := by
  cases m with
  | cosine =>
      unfold distOf cosineDist
      by_cases h : normSq q * normSq c = 0
      · simp [h, ValidFor]
      · simp only [h, if_false]
        have : 0 ≤ normSq q * normSq c :=
          mul_nonneg (normSq_nonneg q) (normSq_nonneg c)
        exact lt_of_le_of_ne this (Ne.symm h)
  | euclidean =>
      unfold distOf euclideanDist
      exact normSq_nonneg _

/-- Every representation denotes exactly one real value. -/
theorem hasVal_exists (d : Dist) : ∃ v : ℝ, d.hasVal v := by
  cases d <;> exact ⟨_, rfl⟩

/-- On representations valid for a common metric, the computable
comparator agrees with the semantic real order. -/
theorem ble_iff_le {m : Metric} {d1 d2 : Dist}
    (h1 : ValidFor m d1) (h2 : ValidFor m d2) :
    Dist.ble d1 d2 ↔ Dist.le d1 d2 := by
  cases m <;> cases d1 <;> cases d2
  case cosine.cos.euc => exact h2.elim
  case cosine.euc.cos => exact h1.elim
  case cosine.euc.euc => exact h1.elim
  case euclidean.cos.cos => exact h1.elim
  case euclidean.cos.euc => exact h1.elim
  case euclidean.euc.cos => exact h2.elim
  case cosine.cos.cos s1 t1 s2 t2 =>
    unfold ValidFor at h1 h2
    rw [cos_ble_iff h1 h2]
    unfold Dist.le Dist.hasVal
    constructor
    · intro h v w hv hw; rw [hv, hw]; exact h
    · intro h; exact h _ _ rfl rfl
  case euclidean.euc.euc u1 u2 =>
    unfold ValidFor at h1 h2
    rw [euc_ble_iff h2]
    unfold Dist.le Dist.hasVal
    constructor
    · intro h v w hv hw; rw [hv, hw]; exact h
    · intro h; exact h _ _ rfl rfl

/-! ### Behaviour of `rank` on validated input -/

/-- On a nonempty candidate list whose vectors all match the query's
length, `rank` returns the sorted (optionally truncated) scored list. -/
theorem rank_ok {σ : Type} (q : Vec) (cs : List (σ × Vec))
    (m : Metric) (n : Option ℕ) (hne : cs ≠ [])
    (hdim : ∀ p ∈ cs, (p.2 : Vec).length = q.length) :
    rank q cs m n = .ok (match n with
      | some k =>
          (List.insertionSort rankLe (cs.map (fun c => (c.1, distOf m q c.2)))).take k
      | none =>
          List.insertionSort rankLe (cs.map (fun c => (c.1, distOf m q c.2)))) := by
  unfold rank
  rw [if_neg, if_neg]
  · intro hcon
    rw [List.any_eq_true] at hcon
    obtain ⟨p, hp, hlen⟩ := hcon
    exact absurd (hdim p hp) (by simpa using hlen)
  · intro hcon
    exact hne (List.isEmpty_iff.mp hcon)

/-! ### Claim theorems -/

/-- C2: for every valid input, the length of the returned ranked
sequence equals `min(top_n, len(candidates))` when `top_n` is given and
`len(candidates)` when it is not. -/
theorem rank_result_length {σ : Type} (q : Vec) (cs : List (σ × Vec))
    (m : Metric) (n : Option ℕ) (hne : cs ≠ [])
    (hdim : ∀ p ∈ cs, (p.2 : Vec).length = q.length) :
    ∃ res, rank q cs m n = .ok res ∧
      res.length = (match n with
        | some k => min k cs.length
        | none => cs.length) := by
  refine ⟨_, rank_ok q cs m n hne hdim, ?_⟩
  cases n with
  | none => simp
  | some k => simp

/-- C2 witness at the worked example of the spec. -/
theorem rank_result_length_witness :
    ∃ res, rank [1, 0]
        [(("a" : String), ([1, 0] : Vec)), ("b", [0, 1]), ("c", [1, 1])]
        Metric.cosine (some 2) = .ok res ∧ res.length = min 2 3 :=
  rank_result_length [1, 0] [("a", [1, 0]), ("b", [0, 1]), ("c", [1, 1])]
    Metric.cosine (some 2) (by simp) (by intro p hp; fin_cases hp <;> rfl)

/-- C3: with an empty candidate collection the ranking operation fails
with `EmptyInput` and returns no result; with a nonempty collection of
matching dimensions it does not fail with `EmptyInput` (it succeeds). -/
theorem rank_empty_input {σ : Type} :
    (∀ (q : Vec) (m : Metric) (n : Option ℕ),
        rank (σ := σ) q [] m n = .error .EmptyInput) ∧
    (∀ (q : Vec) (cs : List (σ × Vec)) (m : Metric) (n : Option ℕ),
        cs ≠ [] → (∀ p ∈ cs, (p.2 : Vec).length = q.length) →
        ∃ res, rank q cs m n = .ok res) := by
  constructor
  · intro q m n
    rfl
  · intro q cs m n hne hdim
    exact ⟨_, rank_ok q cs m n hne hdim⟩

/-- C3 witness: the empty list errors, a matching singleton succeeds. -/
theorem rank_empty_input_witness :
    rank ([1] : Vec) ([] : List (String × Vec)) Metric.cosine none
        = .error .EmptyInput ∧
    ∃ res, rank ([1] : Vec) [(("a" : String), ([2] : Vec))]
        Metric.euclidean none = .ok res :=
  ⟨(rank_empty_input (σ := String)).1 [1] Metric.cosine none,
   (rank_empty_input (σ := String)).2 [1] [("a", [2])] Metric.euclidean none
     (by simp) (by intro p hp; fin_cases hp; rfl)⟩

/-- C4: whenever some candidate vector's length differs from the
query's, the ranking operation fails with `DimensionMismatch` and
returns no result sequence. -/
theorem rank_dimension_mismatch {σ : Type} (q : Vec) (cs : List (σ × Vec))
    (m : Metric) (n : Option ℕ)
    (h : ∃ p ∈ cs, (p.2 : Vec).length ≠ q.length) :
    rank q cs m n = .error .DimensionMismatch := by
  obtain ⟨p, hp, hlen⟩ := h
  unfold rank
  rw [if_neg, if_pos]
  · rw [List.any_eq_true]
    exact ⟨p, hp, by simpa using hlen⟩
  · intro hcon
    rw [List.isEmpty_iff.mp hcon] at hp
    exact absurd hp (List.not_mem_nil p)

/-- C4 witness: a query of length 2 against a candidate of length 3. -/
theorem rank_dimension_mismatch_witness :
    rank ([1, 0] : Vec) [(("a" : String), ([1, 2, 3] : Vec))]
        Metric.cosine (some 2) = .error .DimensionMismatch :=
  rank_dimension_mismatch [1, 0] [("a", [1, 2, 3])] Metric.cosine (some 2)
    ⟨("a", [1, 2, 3]), by simp, by simp⟩

/-- C9: on candidates `[("a",[1,0]), ("b",[0,1]), ("c",[1,1])]`, query
`[1,0]`, cosine metric, `top_n = 2`, the ranking returns exactly
`[("a", 0), ("c", 1 - 1/√2)]` (`1 - 1/√2 ≈ 0.29`). -/
theorem rank_worked_example :
    rank ([1, 0] : Vec)
        [(("a" : String), ([1, 0] : Vec)), ("b", [0, 1]), ("c", [1, 1])]
        Metric.cosine (some 2)
      = .ok [("a", Dist.cos 1 1), ("c", Dist.cos 1 2)] ∧
    Dist.hasVal (Dist.cos 1 1) 0 ∧
    Dist.hasVal (Dist.cos 1 2) (1 - 1 / Real.sqrt 2) := by
  refine ⟨?_, ?_, ?_⟩
  · norm_num [rank, distOf, cosineDist, dot, normSq, rankLe, Dist.ble, Dist.key,
      List.insertionSort, List.orderedInsert]
  · simp [Dist.hasVal, Real.sqrt_one]
  · norm_num [Dist.hasVal]

/-- Any successful `rank` result is a sublist of the sorted scored
list (the whole list when untruncated, a `take` of it otherwise). -/
theorem rank_ok_sublist {σ : Type} {q : Vec} {cs : List (σ × Vec)}
    {m : Metric} {n : Option ℕ} {res : List (σ × Dist)}
    (h : rank q cs m n = .ok res) :
    List.Sublist res
      (List.insertionSort rankLe (cs.map (fun c => (c.1, distOf m q c.2)))) := by
  unfold rank at h
  split_ifs at h
  cases n with
  | some k =>
      simp only [Except.ok.injEq] at h
      rw [← h]
      exact List.take_sublist _ _
  | none =>
      simp only [Except.ok.injEq] at h
      rw [← h]

/-- Every scored pair in a successful `rank` result is valid for the
selected metric. -/
theorem rank_ok_valid {σ : Type} {q : Vec} {cs : List (σ × Vec)}
    {m : Metric} {n : Option ℕ} {res : List (σ × Dist)}
    (h : rank q cs m n = .ok res) :
    ∀ p ∈ res, ValidFor m p.2 := by
  intro p hp
  have h1 : p ∈ List.insertionSort rankLe (cs.map (fun c => (c.1, distOf m q c.2))) :=
    (rank_ok_sublist h).subset hp
  have h2 : p ∈ cs.map (fun c => (c.1, distOf m q c.2)) :=
    (List.perm_insertionSort rankLe _).subset h1
  obtain ⟨c, _, rfl⟩ := List.mem_map.mp h2
  exact distOf_valid m q c.2

/-- C1: in every successful ranking result the distances are
monotonically non-decreasing — each returned distance's real value is
at most every later one's. -/
theorem rank_distances_sorted {σ : Type} (q : Vec) (cs : List (σ × Vec))
    (m : Metric) (n : Option ℕ) (res : List (σ × Dist))
    (h : rank q cs m n = .ok res) :
    res.Pairwise (fun p p' => Dist.le p.2 p'.2) := by
  have hsorted : (List.insertionSort rankLe
      (cs.map (fun c => (c.1, distOf m q c.2)))).Pairwise rankLe :=
    List.sorted_insertionSort rankLe _
  have hres : res.Pairwise rankLe := hsorted.sublist (rank_ok_sublist h)
  exact hres.imp_of_mem (fun {p p'} hp hp' hle =>
    (ble_iff_le (rank_ok_valid h p hp) (rank_ok_valid h p' hp')).mp hle)

/-- C1 witness: the sorted property at the spec's worked example. -/
theorem rank_distances_sorted_witness :
    ([(("a" : String), Dist.cos 1 1), ("c", Dist.cos 1 2)] :
        List (String × Dist)).Pairwise (fun p p' => Dist.le p.2 p'.2) :=
  rank_distances_sorted [1, 0]
    [("a", [1, 0]), ("b", [0, 1]), ("c", [1, 1])] Metric.cosine (some 2)
    [("a", Dist.cos 1 1), ("c", Dist.cos 1 2)]
    (by norm_num [rank, distOf, cosineDist, dot, normSq, rankLe, Dist.ble,
      Dist.key, List.insertionSort, List.orderedInsert])

/-- An untruncated successful `rank` result is exactly the sorted
scored list. -/
theorem rank_none_eq {σ : Type} {q : Vec} {cs : List (σ × Vec)}
    {m : Metric} {res : List (σ × Dist)}
    (h : rank q cs m none = .ok res) :
    res = List.insertionSort rankLe (cs.map (fun c => (c.1, distOf m q c.2))) := by
  unfold rank at h
  split_ifs at h
  simpa using h.symm

/-- C6: ranking is deterministic — identical inputs give identical
outputs — and ties in distance are broken by the candidates' original
input order (stable sort): when candidate `a` precedes candidate `b`
in the input and their distances tie, `a` still precedes `b` in the
result. -/
theorem rank_deterministic_stable {σ : Type} (q : Vec) (cs : List (σ × Vec))
    (m : Metric) (n : Option ℕ) :
    rank q cs m n = rank q cs m n ∧
    (∀ (a b : σ × Vec) (res : List (σ × Dist)),
      rank q cs m none = .ok res →
      List.Sublist [a, b] cs →
      Dist.ble (distOf m q a.2) (distOf m q b.2) →
      Dist.ble (distOf m q b.2) (distOf m q a.2) →
      List.Sublist [(a.1, distOf m q a.2), (b.1, distOf m q b.2)] res) := by
  refine ⟨rfl, ?_⟩
  intro a b res h hsub hab _
  rw [rank_none_eq h]
  have hmap : List.Sublist
      ([a, b].map (fun c => (c.1, distOf m q c.2)))
      (cs.map (fun c => (c.1, distOf m q c.2))) := hsub.map _
  simp only [List.map] at hmap
  exact List.pair_sublist_insertionSort hab hmap

/-- C6 witness: a concrete tie (two candidates parallel to the query)
kept in input order. -/
theorem rank_deterministic_stable_witness :
    List.Sublist
      [(("x" : String), distOf Metric.cosine [1, 0] [1, 0]),
       ("y", distOf Metric.cosine [1, 0] [2, 0])]
      [("x", Dist.cos 1 1), ("y", Dist.cos 2 4), ("z", Dist.cos 0 1)] :=
  (rank_deterministic_stable [1, 0]
      [("x", [1, 0]), ("y", [2, 0]), ("z", [0, 1])]
      Metric.cosine none).2
    ("x", [1, 0]) ("y", [2, 0])
    [("x", Dist.cos 1 1), ("y", Dist.cos 2 4), ("z", Dist.cos 0 1)]
    (by norm_num [rank, distOf, cosineDist, dot, normSq, rankLe, Dist.ble,
      Dist.key, List.insertionSort, List.orderedInsert])
    (by refine List.Sublist.cons₂ _ (List.Sublist.cons₂ _ ?_)
        exact List.nil_sublist _)
    (by norm_num [distOf, cosineDist, dot, normSq, Dist.ble, Dist.key])
    (by norm_num [distOf, cosineDist, dot, normSq, Dist.ble, Dist.key])

/-- C10: an untruncated ranking returns a permutation of the input
candidate identifiers (nothing added, dropped or duplicated), and
`recommendations_from_strings` returns a permutation of all indices
`0 .. len(strings) - 1`, the source index included. -/
theorem rank_permutation {σ : Type} :
    (∀ (q : Vec) (cs : List (σ × Vec)) (m : Metric) (n : Option ℕ)
        (res : List (σ × Dist)),
        rank q cs m n = .ok res →
        (n = none ∨ ∃ k, n = some k ∧ cs.length ≤ k) →
        (res.map Prod.fst).Perm (cs.map Prod.fst)) ∧
    (∀ (emb : String → Vec) (strings : List String) (i : ℕ)
        (result : List ℕ),
        recommendations_from_strings emb strings i = some result →
        result.Perm (List.range strings.length)) := by
  constructor
  · intro q cs m n res h hn
    have hres : res = List.insertionSort rankLe
        (cs.map (fun c => (c.1, distOf m q c.2))) := by
      rcases hn with rfl | ⟨k, rfl, hk⟩
      · exact rank_none_eq h
      · unfold rank at h
        split_ifs at h
        simp only [Except.ok.injEq] at h
        rw [← h, List.take_of_length_le]
        simpa using hk
    rw [hres]
    have hperm : (List.insertionSort rankLe
        (cs.map (fun c => (c.1, distOf m q c.2)))).Perm
        (cs.map (fun c => (c.1, distOf m q c.2))) :=
      List.perm_insertionSort _ _
    have := hperm.map Prod.fst
    simpa using this
  · intro emb strings i result h
    unfold recommendations_from_strings at h
    cases hget : (strings.map emb).get? i with
    | none => simp only [hget] at h; exact absurd h (by simp)
    | some qe =>
        simp only [hget, Option.some.injEq] at h
        rw [← h]
        unfold indices_of_nearest_neighbors_from_distances
        have hperm : (List.insertionSort rankLe
            (distances_from_embeddings qe (strings.map emb)).enum).Perm
            (distances_from_embeddings qe (strings.map emb)).enum :=
          List.perm_insertionSort _ _
        have hmap := hperm.map Prod.fst
        rw [List.enum_map_fst] at hmap
        have hlen : (distances_from_embeddings qe (strings.map emb)).length
            = strings.length := by
          simp [distances_from_embeddings]
        rw [hlen] at hmap
        exact hmap

/-- C10 witness: three strings, all indices returned. -/
theorem rank_permutation_witness :
    ([(("a" : String), Dist.cos 1 1), ("c", Dist.cos 1 2),
        ("b", Dist.cos 0 1)].map Prod.fst).Perm
      ([(("a" : String), ([1, 0] : Vec)), ("b", [0, 1]),
        ("c", [1, 1])].map Prod.fst) :=
  (rank_permutation (σ := String)).1 [1, 0]
    [("a", [1, 0]), ("b", [0, 1]), ("c", [1, 1])] Metric.cosine none
    [("a", Dist.cos 1 1), ("c", Dist.cos 1 2), ("b", Dist.cos 0 1)]
    (by norm_num [rank, distOf, cosineDist, dot, normSq, rankLe, Dist.ble,
      Dist.key, List.insertionSort, List.orderedInsert])
    (Or.inl rfl)

/-- C5: when both norms are positive the cosine distance denotes
`1 − dot/(‖q‖·‖c‖)`; when either norm is zero the distance is still
defined and denotes the maximal distance `2`; and every cosine
distance is at most `2`. -/
theorem cosineDist_spec (q c : Vec) :
    (0 < normSq q → 0 < normSq c →
      Dist.hasVal (cosineDist q c)
        (1 - (dot q c : ℝ) /
          (Real.sqrt ((normSq q : ℝ)) * Real.sqrt ((normSq c : ℝ))))) ∧
    ((normSq q = 0 ∨ normSq c = 0) →
      cosineDist q c = Dist.cos (-1) 1 ∧ Dist.hasVal (cosineDist q c) 2) ∧
    (∀ v : ℝ, Dist.hasVal (cosineDist q c) v → v ≤ 2) := by
  refine ⟨?_, ?_, ?_⟩
  · intro hq hc
    have ht : normSq q * normSq c ≠ 0 := (mul_pos hq hc).ne'
    unfold cosineDist
    simp only [ht, if_false]
    unfold Dist.hasVal
    rw [← Real.sqrt_mul (by exact_mod_cast (normSq_nonneg q))]
    push_cast
    ring_nf
  · intro h0
    have ht : normSq q * normSq c = 0 := by
      rcases h0 with h0 | h0 <;> simp [h0]
    have heq : cosineDist q c = Dist.cos (-1) 1 := by
      simp [cosineDist, ht]
    refine ⟨heq, ?_⟩
    rw [heq]
    show (2 : ℝ) = 1 - ((-1 : ℚ) : ℝ) / Real.sqrt (((1 : ℚ) : ℝ))
    push_cast
    rw [Real.sqrt_one]
    norm_num
  · intro v hv
    by_cases ht : normSq q * normSq c = 0
    · have heq : cosineDist q c = Dist.cos (-1) 1 := by
        simp [cosineDist, ht]
      rw [heq] at hv
      have hv2 : v = 1 - ((-1 : ℚ) : ℝ) / Real.sqrt (((1 : ℚ) : ℝ)) := hv
      rw [hv2]
      push_cast
      rw [Real.sqrt_one]
      norm_num
    · have heq : cosineDist q c = Dist.cos (dot q c) (normSq q * normSq c) := by
        simp [cosineDist, ht]
      rw [heq] at hv
      have hv2 : v = 1 - ((dot q c : ℚ) : ℝ) /
          Real.sqrt ((normSq q * normSq c : ℚ) : ℝ) := hv
      have htpos : (0 : ℝ) < ((normSq q * normSq c : ℚ) : ℝ) := by
        have h1 : 0 ≤ normSq q * normSq c :=
          mul_nonneg (normSq_nonneg q) (normSq_nonneg c)
        have h2 : 0 < normSq q * normSq c := lt_of_le_of_ne h1 (Ne.symm ht)
        exact_mod_cast h2
      have hcs : ((dot q c : ℚ) : ℝ) ^ 2 ≤ ((normSq q * normSq c : ℚ) : ℝ) := by
        have := dot_sq_le q c
        exact_mod_cast this
      have hneg : -Real.sqrt ((normSq q * normSq c : ℚ) : ℝ) ≤ ((dot q c : ℚ) : ℝ) :=
        Real.neg_sqrt_le_of_sq_le hcs
      have hspos : (0 : ℝ) < Real.sqrt ((normSq q * normSq c : ℚ) : ℝ) :=
        Real.sqrt_pos.mpr htpos
      have hratio : (-1 : ℝ) ≤ ((dot q c : ℚ) : ℝ) /
          Real.sqrt ((normSq q * normSq c : ℚ) : ℝ) := by
        rw [le_div_iff₀ hspos]
        linarith
      rw [hv2]
      linarith

/-- C5 witness: the positive-norm formula at `q = [1]`, `c = [2]`, and
the zero-norm fallback at `q = [0]`, `c = [1]`. -/
theorem cosineDist_spec_witness :
    Dist.hasVal (cosineDist [1] [2])
      (1 - (dot [1] [2] : ℝ) /
        (Real.sqrt ((normSq [1] : ℝ)) * Real.sqrt ((normSq [2] : ℝ)))) ∧
    (cosineDist [0] [1] = Dist.cos (-1) 1 ∧
      Dist.hasVal (cosineDist [0] [1]) 2) :=
  ⟨(cosineDist_spec [1] [2]).1 (by norm_num [normSq, dot])
      (by norm_num [normSq, dot]),
   (cosineDist_spec [0] [1]).2.1 (Or.inl (by norm_num [normSq, dot]))⟩

/-- Every value denoted by a metric's distance is nonnegative. -/
theorem distOf_hasVal_nonneg (m : Metric) (q c : Vec) (v : ℝ)
    (hv : Dist.hasVal (distOf m q c) v) : 0 ≤ v := by
  cases m with
  | cosine =>
      by_cases ht : normSq q * normSq c = 0
      · have heq : distOf Metric.cosine q c = Dist.cos (-1) 1 := by
          simp [distOf, cosineDist, ht]
        rw [heq] at hv
        have hv2 : v = 1 - ((-1 : ℚ) : ℝ) / Real.sqrt (((1 : ℚ) : ℝ)) := hv
        rw [hv2]
        push_cast
        rw [Real.sqrt_one]
        norm_num
      · have heq : distOf Metric.cosine q c
            = Dist.cos (dot q c) (normSq q * normSq c) := by
          simp [distOf, cosineDist, ht]
        rw [heq] at hv
        have hv2 : v = 1 - ((dot q c : ℚ) : ℝ) /
            Real.sqrt ((normSq q * normSq c : ℚ) : ℝ) := hv
        have hcs : ((dot q c : ℚ) : ℝ) ^ 2 ≤ ((normSq q * normSq c : ℚ) : ℝ) := by
          exact_mod_cast dot_sq_le q c
        have habs : |((dot q c : ℚ) : ℝ)| ≤
            Real.sqrt ((normSq q * normSq c : ℚ) : ℝ) := Real.abs_le_sqrt hcs
        have hle : ((dot q c : ℚ) : ℝ) ≤
            Real.sqrt ((normSq q * normSq c : ℚ) : ℝ) :=
          (le_abs_self _).trans habs
        have hspos : (0 : ℝ) < Real.sqrt ((normSq q * normSq c : ℚ) : ℝ) := by
          apply Real.sqrt_pos.mpr
          have h1 : 0 ≤ normSq q * normSq c :=
            mul_nonneg (normSq_nonneg q) (normSq_nonneg c)
          have h2 : 0 < normSq q * normSq c := lt_of_le_of_ne h1 (Ne.symm ht)
          exact_mod_cast h2
        have hdiv : ((dot q c : ℚ) : ℝ) /
            Real.sqrt ((normSq q * normSq c : ℚ) : ℝ) ≤ 1 := by
          rw [div_le_one hspos]
          exact hle
        rw [hv2]
        linarith
  | euclidean =>
      have hv2 : v = Real.sqrt ((normSq (vsub q c) : ℚ) : ℝ) := hv
      rw [hv2]
      exact Real.sqrt_nonneg _

/-- The distance from a query to itself denotes `0` (for cosine,
provided the query's norm is positive). -/
theorem distOf_self_hasVal_zero (m : Metric) (q : Vec)
    (hq : m = Metric.cosine → 0 < normSq q) :
    Dist.hasVal (distOf m q q) 0 := by
  cases m with
  | cosine =>
      have hpos : 0 < normSq q := hq rfl
      have ht : normSq q * normSq q ≠ 0 := (mul_pos hpos hpos).ne'
      have heq : distOf Metric.cosine q q
          = Dist.cos (normSq q) (normSq q * normSq q) := by
        show cosineDist q q = _
        simp only [cosineDist]
        rw [if_neg ht]
        rfl
      rw [heq]
      show (0 : ℝ) = 1 - ((normSq q : ℚ) : ℝ) /
        Real.sqrt ((normSq q * normSq q : ℚ) : ℝ)
      have hcast : ((normSq q * normSq q : ℚ) : ℝ)
          = ((normSq q : ℚ) : ℝ) * ((normSq q : ℚ) : ℝ) := by push_cast; ring
      rw [hcast, Real.sqrt_mul_self (by exact_mod_cast hpos.le),
        div_self (by exact_mod_cast hpos.ne')]
      norm_num
  | euclidean =>
      have heq : distOf Metric.euclidean q q = Dist.euc 0 := by
        simp [distOf, euclideanDist, normSq_vsub_self]
      rw [heq]
      show (0 : ℝ) = Real.sqrt (((0 : ℚ) : ℝ))
      norm_num

/-- Every entry of a successful `rank` result is a scored input
candidate. -/
theorem rank_ok_mem {σ : Type} {q : Vec} {cs : List (σ × Vec)}
    {m : Metric} {n : Option ℕ} {res : List (σ × Dist)}
    (h : rank q cs m n = .ok res) :
    ∀ p ∈ res, ∃ c ∈ cs, p = (c.1, distOf m q c.2) := by
  intro p hp
  have h1 : p ∈ List.insertionSort rankLe (cs.map (fun c => (c.1, distOf m q c.2))) :=
    (rank_ok_sublist h).subset hp
  have h2 : p ∈ cs.map (fun c => (c.1, distOf m q c.2)) :=
    (List.perm_insertionSort rankLe _).subset h1
  obtain ⟨c, hc, rfl⟩ := List.mem_map.mp h2
  exact ⟨c, hc, rfl⟩

/-- C7 counterexample: the claim fails as stated.  Under the Euclidean
metric with query `[1]` and candidates `[("a",[1]), ("b",[1])]`,
candidate "b"'s vector equals the query yet the first returned entry
is "a"; and under the cosine metric with the zero query `[0]` and the
single equal candidate `[("z",[0])]`, the returned distance denotes 2,
not 0. -/
theorem rank_equal_candidate_counterexample :
    (rank ([1] : Vec) [(("a" : String), ([1] : Vec)), ("b", [1])]
        Metric.euclidean none
      = .ok [("a", Dist.euc 0), ("b", Dist.euc 0)]) ∧
    (rank ([0] : Vec) [(("z" : String), ([0] : Vec))] Metric.cosine none
      = .ok [("z", Dist.cos (-1) 1)]) ∧
    ¬ Dist.hasVal (Dist.cos (-1) 1) 0 := by
  refine ⟨?_, ?_, ?_⟩
  · norm_num [rank, distOf, euclideanDist, vsub, dot, normSq, rankLe,
      Dist.ble, Dist.key, List.insertionSort, List.orderedInsert]
  · norm_num [rank, distOf, cosineDist, dot, normSq, rankLe,
      Dist.ble, Dist.key, List.insertionSort, List.orderedInsert]
  · intro h
    have h2 : (0 : ℝ) = 1 - ((-1 : ℚ) : ℝ) / Real.sqrt (((1 : ℚ) : ℝ)) := h
    rw [show (((1 : ℚ)) : ℝ) = 1 by norm_num, Real.sqrt_one] at h2
    norm_num at h2

/-- C7 amended: if some candidate's vector equals the query, the first
entry of the untruncated ranking result has distance 0 under the
Euclidean metric, and likewise under the cosine metric provided the
query's norm is positive; a tied candidate earlier in input order may
occupy the first position in place of the equal candidate itself. -/
theorem rank_equal_candidate_first_distance_zero {σ : Type}
    (q : Vec) (cs : List (σ × Vec)) (m : Metric) (res : List (σ × Dist))
    (h : rank q cs m none = .ok res)
    (hmem : ∃ p ∈ cs, p.2 = q)
    (hq : m = Metric.cosine → 0 < normSq q) :
    ∃ p0 rest, res = p0 :: rest ∧ Dist.hasVal p0.2 0 := by
  obtain ⟨p, hp, hpq⟩ := hmem
  have hpd : (p.1, distOf m q p.2) ∈ res := by
    have h1 : (p.1, distOf m q p.2) ∈ cs.map (fun c => (c.1, distOf m q c.2)) :=
      List.mem_map.mpr ⟨p, hp, rfl⟩
    have h2 : (p.1, distOf m q p.2) ∈
        List.insertionSort rankLe (cs.map (fun c => (c.1, distOf m q c.2))) :=
      (List.perm_insertionSort rankLe _).symm.subset h1
    rw [rank_none_eq h]
    exact h2
  have hzero : Dist.hasVal (distOf m q p.2) 0 := by
    rw [hpq]
    exact distOf_self_hasVal_zero m q hq
  cases hres : res with
  | nil => rw [hres] at hpd; exact absurd hpd (List.not_mem_nil _)
  | cons p0 rest =>
      refine ⟨p0, rest, rfl, ?_⟩
      obtain ⟨v0, hv0⟩ := hasVal_exists p0.2
      have hv0nonneg : 0 ≤ v0 := by
        obtain ⟨c, _, hc⟩ := rank_ok_mem h p0 (by rw [hres]; exact List.mem_cons_self _ _)
        rw [hc] at hv0
        exact distOf_hasVal_nonneg m q c.2 v0 hv0
      have hv0le : v0 ≤ 0 := by
        rw [hres] at hpd
        rcases List.mem_cons.mp hpd with heq | hmemrest
        · have : p0.2 = distOf m q p.2 := by rw [← heq]
          rw [this] at hv0
          have huniq : v0 = 0 := by
            cases hd : distOf m q p.2 with
            | cos s t =>
                rw [hd] at hv0 hzero
                have e1 : v0 = 1 - ((s : ℚ) : ℝ) / Real.sqrt ((t : ℚ) : ℝ) := hv0
                have e2 : (0 : ℝ) = 1 - ((s : ℚ) : ℝ) / Real.sqrt ((t : ℚ) : ℝ) := hzero
                rw [e1, ← e2]
            | euc u =>
                rw [hd] at hv0 hzero
                have e1 : v0 = Real.sqrt ((u : ℚ) : ℝ) := hv0
                have e2 : (0 : ℝ) = Real.sqrt ((u : ℚ) : ℝ) := hzero
                rw [e1, ← e2]
          exact le_of_eq huniq
        · have hsorted : res.Pairwise rankLe := by
            rw [rank_none_eq h]
            exact List.sorted_insertionSort rankLe _
          rw [hres] at hsorted
          have hrel : rankLe p0 (p.1, distOf m q p.2) :=
            (List.pairwise_cons.mp hsorted).1 _ hmemrest
          have hval0 : ValidFor m p0.2 := by
            have := rank_ok_valid h p0 (by rw [hres]; exact List.mem_cons_self _ _)
            exact this
          have hvalp : ValidFor m (distOf m q p.2) := distOf_valid m q p.2
          have hle : Dist.le p0.2 (distOf m q p.2) :=
            (ble_iff_le hval0 hvalp).mp hrel
          exact hle v0 0 hv0 hzero
      have : v0 = 0 := le_antisymm hv0le hv0nonneg
      rw [← this]
      exact hv0

/-- C7 amended witness: query `[1,0]`, candidate "a" equal to it,
cosine metric — the first returned entry has distance 0. -/
theorem rank_equal_candidate_first_distance_zero_witness :
    ∃ p0 rest, ([(("a" : String), Dist.cos 1 1), ("b", Dist.cos 0 1)] :
        List (String × Dist)) = p0 :: rest ∧ Dist.hasVal p0.2 0 :=
  rank_equal_candidate_first_distance_zero [1, 0]
    [("b", [0, 1]), ("a", [1, 0])] Metric.cosine
    [("a", Dist.cos 1 1), ("b", Dist.cos 0 1)]
    (by norm_num [rank, distOf, cosineDist, dot, normSq, rankLe, Dist.ble,
      Dist.key, List.insertionSort, List.orderedInsert])
    ⟨("a", [1, 0]), by simp, rfl⟩
    (fun _ => by norm_num [normSq, dot])

/-- C8 counterexample: `search_reviews` is not free of side effects on
its inputs — it writes the `similarities` column into the caller's
data frame.  Concretely, on a frame whose `similarities` column is
absent, the frame after the call differs from the frame before it. -/
theorem search_reviews_mutates_caller_frame :
    (search_reviews (fun _ => [1]) (⟨[()], [[1]], none⟩ : ReviewsFrame Unit)
        "x" 3).1
      ≠ (⟨[()], [[1]], none⟩ : ReviewsFrame Unit) := by
  intro hcon
  have h2 := congrArg ReviewsFrame.similarities hcon
  simp [search_reviews] at h2

/-- C8 amended: the ranking computation is a deterministic function of
its inputs, but `search_reviews` and `search_functions` do have one
side effect: each writes the `similarities` column of the caller's
data frame.  All other caller-visible state — the embedding column and
the remaining row data — is left unchanged, and the spec-level `rank`
operation itself touches no state at all. -/
theorem search_reviews_effect_isolated {ρ : Type} (emb : String → Vec)
    (df : ReviewsFrame ρ) (dfc : CodeFrame ρ) (s : String) (n : ℕ) :
    ((search_reviews emb df s n).1.rest = df.rest ∧
      (search_reviews emb df s n).1.ada_embedding = df.ada_embedding ∧
      (search_reviews emb df s n).1.similarities
        = some (df.ada_embedding.map (fun x => cosSim x (emb s)))) ∧
    ((search_functions emb dfc s n).1.rest = dfc.rest ∧
      (search_functions emb dfc s n).1.code_embedding = dfc.code_embedding ∧
      (search_functions emb dfc s n).1.similarities
        = some (dfc.code_embedding.map (fun x => cosSim x (emb s)))) ∧
    search_reviews emb df s n = search_reviews emb df s n :=
  ⟨⟨rfl, rfl, rfl⟩, ⟨rfl, rfl, rfl⟩, rfl⟩

end DocAI
